import Mathlib

/-!
Shallow embedding of the SHL assessment recommendation core
(src/recommender.py) and proofs about it.

Modelling conventions:
* Python dict records become the structure `SHL.Rec`; a field holds `none`
  when the corresponding dict key is absent.
* Python floats (similarity scores) are modelled as `Int`: the code only
  copies and compares similarities, never does arithmetic on them, so any
  linearly ordered carrier is faithful.
* Python builtin `sorted(key=..., reverse=True)` is a stable sort; it is
  modelled by the stable insertion sort `sortDescSim` (stability uniquely
  determines the output permutation, so any stable sort is the same
  function).
* The Gemini LLM call is abstracted by an oracle value `LLMResult`
  (response text, timeout, or raised exception); the embedding provider by
  outcome-valued oracles.  The FAISS search is abstracted by its returned
  list of (similarity, offset) pairs.
* Regular-expression steps of the response parser are implemented
  character-by-character over `List Char`, restricted to ASCII classes
  (the strings involved are ASCII).
* Python list indexing `l[i]` with possibly-negative `i`, and slices
  `l[:i]`, are modelled by `pyGet` and `pyTake` with Python semantics;
  an IndexError is an `Except.error`.
-/

namespace SHL

/-- ASCII whitespace, as stripped by Python str.strip and matched by re \s. -/
def pyWs (c : Char) : Bool :=
  c = ' ' || c = '\t' || c = '\n' || c = '\r' || c = '\x0b' || c = '\x0c'

/-- Python str.strip on a character list. -/
def pyStripList (cs : List Char) : List Char :=
  ((cs.dropWhile pyWs).reverse.dropWhile pyWs).reverse

/-- Python str.strip. -/
def pyStrip (s : String) : String := String.mk (pyStripList s.toList)

/-- Python str.lower (ASCII). -/
def pyLower (s : String) : String := String.mk (s.toList.map Char.toLower)

/-- Python str.upper (ASCII). -/
def pyUpper (s : String) : String := String.mk (s.toList.map Char.toUpper)

/-- Is the first list a contiguous substring of the second (Python `in`). -/
def subOccurs (n : List Char) : List Char → Bool
  | [] => n.isEmpty
  | c :: rest => n.isPrefixOf (c :: rest) || subOccurs n rest

/-- Python `needle in hay` on strings. -/
def occursIn (needle hay : String) : Bool := subOccurs needle.toList hay.toList

/-- A metadata / candidate record: the dict shape used by recommender.py.
`none` models an absent key.  `testType` is the key Test Type, `typ` the
key named type. -/
structure Rec where
  URL : Option String := none
  url : Option String := none
  testType : Option String := none
  typ : Option String := none
  similarity : Option Int := none
  rerank_score : Option Int := none
  rerank_position : Option Int := none
  original_similarity : Option Int := none
deriving DecidableEq

/-- Default (empty) record. -/
def dRec : Rec := {}

/-- Deduplication key (line 189): the URL value when present and nonempty,
otherwise the url value with empty default. -/
def urlKey (r : Rec) : String :=
  match r.URL with
  | some s => if s = "" then r.url.getD "" else s
  | none => r.url.getD ""

/-- Sets the similarity field on a record copy (line 186). -/
def setSim (r : Rec) (s : Int) : Rec := { r with similarity := some s }

/-- Reads the similarity field with default 0. -/
def simOf (r : Rec) : Int := r.similarity.getD 0

/-- The type tag: the Test Type value, else the type value, uppercased
(line 236). -/
def typeKey (r : Rec) : String := pyUpper (r.testType.getD (r.typ.getD ""))

/-- The type tag read from Test Type only, with no fallback to the other
key, as used when selecting behavioural candidates (line 261). -/
def strictTypeKey (r : Rec) : String := pyUpper (r.testType.getD "")

/-- Membership of a nonempty tag in `types_in_results`. -/
def hasType (l : List Rec) (t : String) : Bool := l.any (fun r => typeKey r == t)

/-- Whether any record carries a positive rerank score (lines 215, 242). -/
def hasRerankScores (l : List Rec) : Bool :=
  l.any (fun r => decide (0 < r.rerank_score.getD 0))

/-- Descending-similarity comparison used for the stable sort. -/
def descLe (a b : Rec) : Bool := decide (simOf b ≤ simOf a)

/-- Stable insertion into a descending-similarity sorted list. -/
def insDesc (x : Rec) : List Rec → List Rec
  | [] => [x]
  | y :: ys => if descLe x y then x :: y :: ys else y :: insDesc x ys

/-- Model of the Python builtin sorted by similarity key with reverse set,
which is a stable descending sort. -/
def sortDescSim : List Rec → List Rec
  | [] => []
  | x :: xs => insDesc x (sortDescSim xs)

/-- Python `l[i]` on lists, allowing negative indices; `none` = IndexError. -/
def pyGet (l : List Rec) (i : Int) : Option Rec :=
  if 0 ≤ i then l.get? i.toNat
  else if (-i).toNat ≤ l.length then l.get? (l.length - (-i).toNat) else none

/-- Python `l[:i]` on lists, allowing negative bounds. -/
def pyTake (l : List Rec) (i : Int) : List Rec :=
  if 0 ≤ i then l.take i.toNat else l.take (l.length - (-i).toNat)

/-! ### The Gemini ranking-response parser (recommender.py lines 479-507) -/

/-- ASCII digit. -/
def isDigitCh (c : Char) : Bool := '0' ≤ c && c ≤ '9'

/-- ASCII regex word character (\w). -/
def isWordCh (c : Char) : Bool := c.isAlpha || isDigitCh c || c = '_'

/-- Numeric value of a digit run. -/
def digitsVal (cs : List Char) : Nat :=
  cs.foldl (fun a c => a * 10 + (c.toNat - 48)) 0

/-- Case-insensitive literal match; returns the rest of the input. -/
def matchCI : List Char → List Char → Option (List Char)
  | [], cs => some cs
  | _ :: _, [] => none
  | p :: ps, c :: cs => if c.toLower = p.toLower then matchCI ps cs else none

/-- The alternatives of the prefix-removing regex, in order. -/
def leadWords : List String :=
  ["ranking", "order", "result", "output", "assessment", "recommendation"]

/-- Try each alternative in order at the start of the input. -/
def tryLead : List String → List Char → Option (List Char)
  | [], _ => none
  | w :: ws, cs =>
    match matchCI w.toList cs with
    | some rest => some rest
    | none => tryLead ws cs

/-- re.sub of the anchored, case-insensitive pattern removing a leading
ranking/order/result/output/assessment/recommendation word, an optional
colon and following whitespace. -/
def stripLead (cs : List Char) : List Char :=
  match tryLead leadWords cs with
  | none => cs
  | some rest =>
    let r2 := match rest with
      | ':' :: t => t
      | other => other
    r2.dropWhile pyWs

/-- re.sub removing the bracket characters [ ] ( ). -/
def dropBrackets (cs : List Char) : List Char :=
  cs.filter (fun c => !(c = '[' || c = ']' || c = '(' || c = ')'))

/-- Match one regex group \s*,\s*\d+ at the head; returns matched text and
rest.  (Greedy \s* and \d+ are deterministic here.) -/
def grabGroup (cs : List Char) : Option (List Char × List Char) :=
  let s1 := cs.takeWhile pyWs
  match cs.dropWhile pyWs with
  | ',' :: r2 =>
    let s2 := r2.takeWhile pyWs
    let r3 := r2.dropWhile pyWs
    let d := r3.takeWhile isDigitCh
    if d.isEmpty then none
    else some (s1 ++ ',' :: (s2 ++ d), r3.dropWhile isDigitCh)
  | _ => none

/-- Greedily match (\s*,\s*\d+)* with fuel (each group eats ≥ 2 chars). -/
def grabGroups : Nat → List Char → List Char
  | 0, _ => []
  | n + 1, cs =>
    match grabGroup cs with
    | some (m, rest) => m ++ grabGroups n rest
    | none => []

/-- Match \d+(\s*,\s*\d+)+ at the head of the input. -/
def runAt (cs : List Char) : Option (List Char) :=
  let d := cs.takeWhile isDigitCh
  let r := cs.dropWhile isDigitCh
  if d.isEmpty then none
  else
    match grabGroup r with
    | none => none
    | some (m1, r1) => some (d ++ m1 ++ grabGroups r1.length r1)

/-- re.search for the first comma-separated run of integers. -/
def findRun : List Char → Option (List Char)
  | [] => none
  | c :: rest =>
    match runAt (c :: rest) with
    | some m => some m
    | none => findRun rest

/-- One pass of re.findall for \b\d+\b: `cur` is the reversed digit run in
progress, `curOk` whether its left boundary was a word boundary, `prevWord`
whether the previous character was a word character. -/
def scanNumsGo (prevWord : Bool) (cur : List Char) (curOk : Bool) :
    List Char → List Nat
  | [] => if !cur.isEmpty && curOk then [digitsVal cur.reverse] else []
  | c :: rest =>
    if isDigitCh c then
      if cur.isEmpty then scanNumsGo true [c] (!prevWord) rest
      else scanNumsGo true (c :: cur) curOk rest
    else
      if !cur.isEmpty && curOk && !isWordCh c then
        digitsVal cur.reverse :: scanNumsGo (isWordCh c) [] false rest
      else scanNumsGo (isWordCh c) [] false rest

/-- The findall step for the digit-run-with-word-boundaries pattern, each
match converted to its numeric value. -/
def findNums (cs : List Char) : List Nat := scanNumsGo false [] false cs

/-- The whole number-extraction pipeline applied to the raw response text
(strip, strip, remove prefixes, remove brackets, restrict to the first
comma-separated run when present, findall). -/
def extractNums (text : String) : List Nat :=
  let ranking := pyStripList text.toList
  let c1 := pyStripList ranking
  let c2 := stripLead c1
  let c3 := dropBrackets c2
  let c4 := match findRun c3 with
    | some m => m
    | none => c3
  findNums c4

/-- The loop of lines 503-507: `acc` is the list built so far (it also
plays the role of the seen-set). -/
def validIdxsGo (n : Nat) : List Nat → List Nat → List Nat
  | acc, [] => acc
  | acc, m :: rest =>
    if 1 ≤ m && m ≤ n && !acc.contains (m - 1) then
      validIdxsGo n (acc ++ [m - 1]) rest
    else validIdxsGo n acc rest

/-- 1-based parsed numbers to deduplicated, in-range 0-based indices
(recommender.py lines 500-507). -/
def validIdxs (nums : List Nat) (n : Nat) : List Nat := validIdxsGo n [] nums

/-! ### The reranker (recommender.py lines 362-553) -/

/-- Outcome of the Gemini generate_content call (text, timeout, or any
raised exception). -/
inductive LLMResult where
  | ok (text : String)
  | timeout
  | llmError
deriving DecidableEq

/-- Tag a ranked candidate (lines 518-522): 1-based position `pos` among
`n` parsed indices. -/
def tagRanked (c : Rec) (pos n : Nat) : Rec :=
  { c with rerank_score := some ((n : Int) - (pos : Int) + 1),
           rerank_position := some (pos : Int),
           original_similarity := some (simOf c) }

/-- Tag an unranked candidate appended at the end (lines 525-531). -/
def tagUnranked (c : Rec) (n : Nat) : Rec :=
  { c with rerank_score := some 0,
           rerank_position := some ((n : Int) + 1),
           original_similarity := some (simOf c) }

/-- Reorder candidates by the parsed indices, tagging rank positions
(the loop at lines 515-522; the in-range test is the check the loop
itself performs). -/
def buildRanked (cands : List Rec) (n : Nat) : List Nat → Nat → List Rec
  | [], _ => []
  | i :: rest, pos =>
    match cands.get? i with
    | some c => tagRanked c pos n :: buildRanked cands n rest (pos + 1)
    | none => buildRanked cands n rest (pos + 1)

/-- Append candidates whose position is not among the parsed indices
(the loop at lines 524-531), `i` being the running enumeration index. -/
def buildUnranked (idxs : List Nat) (n : Nat) : List Rec → Nat → List Rec
  | [], _ => []
  | c :: rest, i =>
    if idxs.contains i then buildUnranked idxs n rest (i + 1)
    else tagUnranked c n :: buildUnranked idxs n rest (i + 1)

/-- The similarity fallback: sort descending, truncate. -/
def simFallback (cands : List Rec) (topK : Nat) : List Rec :=
  (sortDescSim cands).take topK

/-- _rerank_with_gemini.  The LLM call is the oracle `resp`; timeout and
exception both fall back to similarity order, a response text goes through
the parser and either reorders or falls back. -/
def rerankWithGemini (query : String) (cands : List Rec) (topK : Nat)
    (resp : LLMResult) : List Rec :=
  match resp with
  | .timeout => simFallback cands topK
  | .llmError => simFallback cands topK
  | .ok text =>
    let numbers := extractNums text
    if numbers.isEmpty then simFallback cands topK
    else
      let idxs := validIdxs numbers cands.length
      if min topK cands.length ≤ idxs.length then
        (buildRanked cands idxs.length idxs 1 ++
          buildUnranked idxs idxs.length cands 0).take topK
      else simFallback cands topK

/-! ### Candidate collection (recommender.py lines 177-197) -/

/-- The collection loop over FAISS (similarity, offset) pairs: offsets
≥ len(metadata) are skipped, then Python indexing (negative offsets wrap,
too-negative ones raise), then URL deduplication. -/
def collectGo (md : List Rec) : List (Int × Int) → List String →
    Except Unit (List Rec)
  | [], _ => .ok []
  | (s, i) :: rest, seen =>
    if (md.length : Int) ≤ i then collectGo md rest seen
    else
      match pyGet md i with
      | none => .error ()
      | some r0 =>
        let r := setSim r0 s
        if seen.contains (urlKey r) then collectGo md rest seen
        else (collectGo md rest (urlKey r :: seen)).map (fun cs => r :: cs)

/-- Candidate collection from the raw search results. -/
def collectCandidates (sr : List (Int × Int)) (md : List Rec) :
    Except Unit (List Rec) :=
  collectGo md sr []

/-- The stream of similarity-tagged records named by nonnegative in-range
offsets, before deduplication. -/
def candStream (sr : List (Int × Int)) (md : List Rec) : List Rec :=
  sr.filterMap (fun p =>
    if 0 ≤ p.2 then (md.get? p.2.toNat).map (fun r => setSim r p.1) else none)

/-- First-occurrence deduplication by urlKey. -/
def dedupGo (seen : List String) : List Rec → List Rec
  | [] => []
  | r :: rest =>
    if seen.contains (urlKey r) then dedupGo seen rest
    else r :: dedupGo (urlKey r :: seen) rest

/-- Reference description of collection for nonnegative offsets: take the
parallel metadata record of each in-range offset, skip out-of-range
offsets, deduplicate keeping first occurrences. -/
def collectRef (sr : List (Int × Int)) (md : List Rec) : List Rec :=
  dedupGo [] (candStream sr md)

/-! ### Type balancing and the orchestrator (recommender.py lines 148-276) -/

/-- The role keywords of _balance_types_light. -/
def roleKeywords : List String :=
  ["engineer", "developer", "programmer", "manager", "lead", "senior", "analyst"]

/-- Whether any role keyword occurs in the lowercased query. -/
def isRoleQuery (query : String) : Bool :=
  roleKeywords.any (fun kw => occursIn kw (pyLower query))

/-- The behavioural candidates drawn from the pool: Test Type P or H and
not already among the selected results (dict equality). -/
def pCandidatesOf (allCands reranked : List Rec) : List Rec :=
  allCands.filter (fun r =>
    (strictTypeKey r == "P" || strictTypeKey r == "H") && !reranked.contains r)

/-- _balance_types_light (lines 225-276). -/
def balanceTypesLight (reranked allCands : List Rec) (query : String)
    (topK : Nat) : List Rec :=
  if hasRerankScores reranked then reranked
  else if hasType reranked "K" && hasType reranked "P" then reranked
  else if isRoleQuery query && !hasType reranked "P" then
    let pCands := pCandidatesOf allCands reranked
    if 8 ≤ reranked.length && !pCands.isEmpty then
      let n := min 2 pCands.length
      pyTake reranked ((topK : Int) - (n : Int)) ++ (sortDescSim pCands).take n
    else reranked
  else reranked

/-- The balance block of recommend (lines 212-219): balance, then sort by
similarity only when no rerank score is present. -/
def balanceStage (reranked allCands : List Rec) (query : String)
    (topK : Nat) : List Rec :=
  if hasRerankScores (balanceTypesLight reranked allCands query topK) then
    balanceTypesLight reranked allCands query topK
  else sortDescSim (balanceTypesLight reranked allCands query topK)

/-- The candidates_for_reranking slice of line 197: the first
min(top_k * 2, len(all_candidates)) collected candidates. -/
def cfrOf (allCands : List Rec) (topK : Nat) : List Rec :=
  allCands.take (min (topK * 2) allCands.length)

/-- The reranked_results of lines 200-208: Gemini rerank when requested and
candidates exist, else plain similarity sort truncated to topK. -/
def rerankedOf (allCands : List Rec) (query : String) (topK : Nat)
    (useReranking : Bool) (resp : LLMResult) : List Rec :=
  if useReranking && decide (0 < (cfrOf allCands topK).length) then
    rerankWithGemini query (cfrOf allCands topK) topK resp
  else (sortDescSim (cfrOf allCands topK)).take topK

/-- recommend after candidate collection (lines 196-223). -/
def recommendCore (allCands : List Rec) (query : String) (topK : Nat)
    (balanceTypes useReranking : Bool) (resp : LLMResult) : List Rec :=
  if balanceTypes &&
      decide ((rerankedOf allCands query topK useReranking resp).length
        < allCands.length) then
    (balanceStage (rerankedOf allCands query topK useReranking resp)
      allCands query topK).take topK
  else (rerankedOf allCands query topK useReranking resp).take topK

/-- recommend (lines 148-223), with the index search abstracted by its
result list `sr` and the loaded metadata by `md`. -/
def recommend (query : String) (sr : List (Int × Int)) (md : List Rec)
    (topK : Nat) (balanceTypes useReranking : Bool) (resp : LLMResult) :
    Except Unit (List Rec) :=
  (collectCandidates sr md).map
    (fun cs => recommendCore cs query topK balanceTypes useReranking resp)

/-! ### The embedding client (recommender.py lines 92-146) -/

/-- Outcome of the first embed_content call: a vector, an exception of the
caught kinds (KeyError/TypeError/AttributeError), or any other exception. -/
inductive EmbedOutcome where
  | ok (v : List Int)
  | failCaught
  | failOther
deriving DecidableEq

/-- The effective query text: strip, and replace a blank query by the
placeholder token. -/
def effQuery (query : String) : String :=
  let q := pyStrip query
  if q = "" then "assessment" else q

/-- generate_query_embedding: the primary call outcome is `m1`; on a caught
exception the secondary/REST path `m23` is tried (none = it failed in any
way); any other failure path returns the zero vector of dimension `dim`. -/
def generateQueryEmbedding (query : String) (m1 : String → EmbedOutcome)
    (m23 : String → Option (List Int)) (dim : Nat) : List Int :=
  let q := effQuery query
  match m1 q with
  | .ok v => v
  | .failOther => List.replicate dim 0
  | .failCaught =>
    match m23 q with
    | some v => v
    | none => List.replicate dim 0

/-! ### Specification-side descriptions and properties -/

/-- Specification-side description of a successful rerank: the candidates
picked position-wise by the parsed 0-based indices, each tagged with its
1-based rank among the `idxs.length` parsed indices, followed by the
unpicked candidates in their original order. -/
def rerankSpec (C : List Rec) (idxs : List Nat) : List Rec :=
  (List.range idxs.length).map
      (fun j => tagRanked (C.getD (idxs.getD j 0) dRec) (j + 1) idxs.length) ++
    C.enum.filterMap
      (fun p => if idxs.contains p.1 then none else some (tagUnranked p.2 idxs.length))

/-- The identity-key invariant: no two entries share a deduplication key. -/
def keyNodup (l : List Rec) : Prop := (l.map urlKey).Nodup

/-! ### Concrete records used by witnesses and counterexamples -/

/-- A technical-category record. -/
def nK (u : String) (s : Int) : Rec :=
  { URL := some u, testType := some "K", similarity := some s }

/-- A technical-category record carrying a zero rerank score. -/
def zK (u : String) (s : Int) : Rec :=
  { URL := some u, testType := some "K", similarity := some s,
    rerank_score := some 0 }

def exA : Rec := { URL := some "https-a", testType := some "K", similarity := some 9 }

def exB : Rec := { URL := some "https-b", testType := some "K", similarity := some 7 }

def exC : Rec := { URL := some "https-c", testType := some "P", similarity := some 5 }

/-- A record with the same URL as exA but lower similarity. -/
def exA2 : Rec := { URL := some "https-a", testType := some "P", similarity := some 3 }

/-- Records with no usable url: absent / empty keys. -/
def nu1 : Rec := { testType := some "K" }

def nu2 : Rec := { typ := some "P", url := some "" }

/-- Eight zero-rerank-score technical records (a list that carries
rerank_score keys although reranking did not rank anything positively). -/
def exZ8 : List Rec :=
  [zK "z1" 80, zK "z2" 75, zK "z3" 70, zK "z4" 65,
   zK "z5" 60, zK "z6" 55, zK "z7" 50, zK "z8" 45]

/-- A behavioural record for the pool. -/
def exP : Rec := { URL := some "zp", testType := some "P", similarity := some 40 }

/-- Eight technical records with no rerank fields (fallback path). -/
def exN8 : List Rec :=
  [nK "n1" 80, nK "n2" 75, nK "n3" 70, nK "n4" 65,
   nK "n5" 60, nK "n6" 55, nK "n7" 50, nK "n8" 45]

/-- A behavioural record with no rerank fields. -/
def exNP : Rec := { URL := some "np", testType := some "P", similarity := some 44 }

/-- A list already holding both categories. -/
def exKP : List Rec := [nK "n1" 80, exNP]

/-- Constant embedding oracles for witnesses. -/
def exM1 : String → EmbedOutcome := fun _ => EmbedOutcome.ok [1, 2, 3]

def exM1f : String → EmbedOutcome := fun _ => EmbedOutcome.failOther

def exM23 : String → Option (List Int) := fun _ => none

/-! ## Helper lemmas -/

theorem contains_iff_mem {α : Type} [DecidableEq α] (l : List α) (a : α) :
    l.contains a = true ↔ a ∈ l := by
  simp only [List.contains]
  exact List.elem_iff

theorem insDesc_perm (x : Rec) (l : List Rec) : (insDesc x l).Perm (x :: l) := by
  induction l with
  | nil => exact List.Perm.refl _
  | cons y ys ih =>
    unfold insDesc
    by_cases h : descLe x y = true
    · rw [if_pos h]
    · rw [if_neg h]
      exact (ih.cons y).trans (List.Perm.swap x y ys)

theorem sortDescSim_perm (l : List Rec) : (sortDescSim l).Perm l := by
  induction l with
  | nil => exact List.Perm.refl _
  | cons x xs ih => exact (insDesc_perm x (sortDescSim xs)).trans (ih.cons x)

theorem mem_sortDescSim {x : Rec} {l : List Rec} :
    x ∈ sortDescSim l ↔ x ∈ l :=
  (sortDescSim_perm l).mem_iff

theorem urlKey_setSim (r : Rec) (s : Int) : urlKey (setSim r s) = urlKey r := rfl

theorem urlKey_tagRanked (c : Rec) (p n : Nat) :
    urlKey (tagRanked c p n) = urlKey c := rfl

theorem urlKey_tagUnranked (c : Rec) (n : Nat) :
    urlKey (tagUnranked c n) = urlKey c := rfl

theorem keyNodup_nil : keyNodup [] := List.nodup_nil

theorem keyNodup_of_sublist {l1 l2 : List Rec} (h : l1.Sublist l2)
    (h2 : keyNodup l2) : keyNodup l1 :=
  List.Nodup.sublist (List.Sublist.map urlKey h) h2

theorem keyNodup_of_perm {l1 l2 : List Rec} (h : l1.Perm l2)
    (h2 : keyNodup l2) : keyNodup l1 :=
  ((h.map urlKey).nodup_iff).mpr h2

theorem keyNodup_take (n : Nat) {l : List Rec} (h : keyNodup l) :
    keyNodup (l.take n) :=
  keyNodup_of_sublist (List.take_sublist n l) h

theorem keyNodup_sortDescSim {l : List Rec} (h : keyNodup l) :
    keyNodup (sortDescSim l) :=
  keyNodup_of_perm (sortDescSim_perm l) h

theorem pyTake_sublist (l : List Rec) (i : Int) : (pyTake l i).Sublist l := by
  unfold pyTake
  split
  · exact List.take_sublist _ _
  · exact List.take_sublist _ _

theorem keyNodup_append {l1 l2 : List Rec} (h1 : keyNodup l1) (h2 : keyNodup l2)
    (hd : ∀ a ∈ l1, ∀ b ∈ l2, urlKey a ≠ urlKey b) : keyNodup (l1 ++ l2) := by
  unfold keyNodup
  rw [List.map_append, List.nodup_append]
  refine ⟨h1, h2, ?_⟩
  intro k hk1 hk2
  obtain ⟨a, ha, rfl⟩ := List.mem_map.mp hk1
  obtain ⟨b, hb, hab⟩ := List.mem_map.mp hk2
  exact hd a ha b hb hab.symm

/-- Distinct positions of a key-nodup list carry distinct keys. -/
theorem keyAt_inj {C : List Rec} (h : keyNodup C) {i j : Nat}
    (hi : i < C.length) (hj : j < C.length)
    (he : urlKey (C.getD i dRec) = urlKey (C.getD j dRec)) : i = j := by
  rw [List.getD_eq_getElem C dRec hi, List.getD_eq_getElem C dRec hj] at he
  have hinj := List.nodup_iff_injective_get.mp h
  have hi2 : i < (C.map urlKey).length := by simpa using hi
  have hj2 : j < (C.map urlKey).length := by simpa using hj
  have : (C.map urlKey).get ⟨i, hi2⟩ = (C.map urlKey).get ⟨j, hj2⟩ := by
    simpa [List.get_eq_getElem, List.getElem_map] using he
  have := hinj this
  exact congrArg Fin.val this

theorem validIdxsGo_spec (n : Nat) (nums acc : List Nat)
    (h1 : acc.Nodup) (h2 : ∀ i ∈ acc, i < n) :
    (validIdxsGo n acc nums).Nodup ∧ ∀ i ∈ validIdxsGo n acc nums, i < n := by
  induction nums generalizing acc with
  | nil => exact ⟨h1, h2⟩
  | cons m rest ih =>
    unfold validIdxsGo
    split
    next hc =>
      have hc2 : 1 ≤ m ∧ m ≤ n ∧ acc.contains (m - 1) = false := by
        simp only [Bool.and_eq_true, Bool.not_eq_true'] at hc
        exact ⟨by simpa using hc.1.1, by simpa using hc.1.2, hc.2⟩
      apply ih
      · rw [List.nodup_append]
        refine ⟨h1, List.nodup_singleton _, ?_⟩
        intro a ha hb
        rw [List.mem_singleton] at hb
        subst hb
        have : (m - 1) ∈ acc := ha
        rw [← contains_iff_mem acc (m - 1)] at this
        rw [hc2.2.2] at this
        cases this
      · intro i hi
        rcases List.mem_append.mp hi with hi | hi
        · exact h2 i hi
        · rw [List.mem_singleton] at hi
          subst hi
          omega
    next => exact ih acc h1 h2

theorem validIdxs_nodup (nums : List Nat) (n : Nat) : (validIdxs nums n).Nodup :=
  (validIdxsGo_spec n nums [] List.nodup_nil (by simp)).1

theorem validIdxs_lt (nums : List Nat) (n : Nat) :
    ∀ i ∈ validIdxs nums n, i < n :=
  (validIdxsGo_spec n nums [] List.nodup_nil (by simp)).2

theorem dedupGo_sublist (seen : List String) (l : List Rec) :
    (dedupGo seen l).Sublist l := by
  induction l generalizing seen with
  | nil => exact List.Sublist.refl _
  | cons r rest ih =>
    unfold dedupGo
    split
    · exact (ih seen).cons r
    · exact (ih (urlKey r :: seen)).cons₂ r

theorem dedupGo_filter_of_mem {k : String} (seen : List String) (l : List Rec)
    (h : seen.contains k = true) :
    (dedupGo seen l).filter (fun c => urlKey c == k) = [] := by
  induction l generalizing seen with
  | nil => rfl
  | cons r rest ih =>
    unfold dedupGo
    split
    · exact ih seen h
    next hr =>
      have hne : (urlKey r == k) = false := by
        rw [beq_eq_false_iff_ne]
        intro he
        rw [he] at hr
        exact hr h
      rw [List.filter_cons, hne]
      rw [if_neg Bool.false_ne_true]
      refine ih (urlKey r :: seen) ?_
      simp only [List.contains_cons, h, Bool.or_true]

theorem dedupGo_filter_of_not_mem {k : String} (seen : List String)
    (l : List Rec) (h : seen.contains k = false) :
    (dedupGo seen l).filter (fun c => urlKey c == k)
      = (l.filter (fun c => urlKey c == k)).take 1 := by
  induction l generalizing seen with
  | nil => rfl
  | cons r rest ih =>
    unfold dedupGo
    by_cases hr : seen.contains (urlKey r) = true
    · rw [if_pos hr]
      have hne : (urlKey r == k) = false := by
        rw [beq_eq_false_iff_ne]
        intro he
        rw [he] at hr
        rw [hr] at h
        cases h
      rw [List.filter_cons, hne]
      rw [if_neg Bool.false_ne_true]
      exact ih seen h
    · rw [if_neg hr]
      by_cases hk : urlKey r = k
      · subst hk
        rw [List.filter_cons, List.filter_cons]
        simp only [beq_self_eq_true, if_pos trivial]
        rw [dedupGo_filter_of_mem (urlKey r :: seen) rest
          (by simp [List.contains_cons])]
        simp [List.take]
      · have hne : (urlKey r == k) = false := beq_eq_false_iff_ne.mpr hk
        rw [List.filter_cons, List.filter_cons, hne]
        rw [if_neg Bool.false_ne_true]
        refine ih (urlKey r :: seen) ?_
        simp only [List.contains_cons, h, Bool.or_false]
        exact beq_eq_false_iff_ne.mpr fun he => hk he.symm

theorem dedupGo_key_spec (seen : List String) (l : List Rec) :
    keyNodup (dedupGo seen l) ∧
      ∀ c ∈ dedupGo seen l, seen.contains (urlKey c) = false := by
  induction l generalizing seen with
  | nil => exact ⟨List.nodup_nil, by simp [dedupGo]⟩
  | cons r rest ih =>
    unfold dedupGo
    split
    · exact ih seen
    next hr =>
      obtain ⟨hn, hmem⟩ := ih (urlKey r :: seen)
      have hr2 : seen.contains (urlKey r) = false := by
        cases h : seen.contains (urlKey r)
        · rfl
        · exact absurd h hr
      constructor
      · unfold keyNodup
        rw [List.map_cons, List.nodup_cons]
        refine ⟨?_, hn⟩
        intro hmk
        obtain ⟨c, hc, hck⟩ := List.mem_map.mp hmk
        have := hmem c hc
        rw [List.contains_cons, hck] at this
        simp at this
      · intro c hc
        rcases List.mem_cons.mp hc with rfl | hc
        · exact hr2
        · have := hmem c hc
          rw [List.contains_cons] at this
          exact (Bool.or_eq_false_iff.mp this).2

theorem collectGo_eq_dedup (md : List Rec) (sr : List (Int × Int))
    (seen : List String) (h : ∀ p ∈ sr, 0 ≤ p.2) :
    collectGo md sr seen = .ok (dedupGo seen (candStream sr md)) := by
  induction sr generalizing seen with
  | nil => rfl
  | cons p rest ih =>
    obtain ⟨s, i⟩ := p
    have hi : (0 : Int) ≤ i := h (s, i) (List.mem_cons_self _ _)
    have hrest : ∀ q ∈ rest, (0 : Int) ≤ q.2 :=
      fun q hq => h q (List.mem_cons_of_mem _ hq)
    unfold collectGo candStream
    rw [List.filterMap_cons]
    by_cases hle : (md.length : Int) ≤ i
    · rw [if_pos hle]
      have hnone : md.get? i.toNat = none :=
        List.get?_eq_none.mpr (by omega)
      simp only [if_pos hi, hnone, Option.map_none']
      exact ih seen hrest
    · rw [if_neg hle]
      have hlt : i.toNat < md.length := by omega
      rw [show pyGet md i = md.get? i.toNat from if_pos hi]
      rw [List.get?_eq_get hlt]
      simp only [if_pos hi, List.get?_eq_get hlt, Option.map_some']
      unfold dedupGo
      by_cases hseen :
          seen.contains (urlKey (setSim (md.get ⟨i.toNat, hlt⟩) s)) = true
      · rw [if_pos hseen, if_pos hseen]
        exact ih seen hrest
      · rw [if_neg hseen, if_neg hseen]
        rw [ih _ hrest]
        rfl

theorem collectGo_key_spec (md : List Rec) (sr : List (Int × Int)) :
    ∀ (seen : List String) (cs : List Rec),
      collectGo md sr seen = .ok cs →
      keyNodup cs ∧ ∀ c ∈ cs, seen.contains (urlKey c) = false := by
  induction sr with
  | nil =>
    intro seen cs h
    unfold collectGo at h
    cases h
    exact ⟨List.nodup_nil, by simp⟩
  | cons p rest ih =>
    intro seen cs h
    obtain ⟨s, i⟩ := p
    unfold collectGo at h
    split at h
    · exact ih seen cs h
    · cases hp : pyGet md i with
      | none => rw [hp] at h; cases h
      | some r0 =>
        rw [hp] at h
        simp only at h
        split at h
        · exact ih seen cs h
        next hsn =>
          cases hrec : collectGo md rest (urlKey (setSim r0 s) :: seen) with
          | error e => rw [hrec] at h; cases h
          | ok cs2 =>
            rw [hrec] at h
            cases h
            obtain ⟨hn2, hm2⟩ := ih _ cs2 hrec
            have hsn2 : seen.contains (urlKey (setSim r0 s)) = false := by
              cases hq : seen.contains (urlKey (setSim r0 s))
              · rfl
              · exact absurd hq hsn
            constructor
            · unfold keyNodup
              rw [List.map_cons, List.nodup_cons]
              refine ⟨?_, hn2⟩
              intro hmk
              obtain ⟨c, hc, hck⟩ := List.mem_map.mp hmk
              have := hm2 c hc
              rw [List.contains_cons, hck] at this
              simp at this
            · intro c hc
              rcases List.mem_cons.mp hc with rfl | hc
              · exact hsn2
              · have := hm2 c hc
                rw [List.contains_cons] at this
                exact (Bool.or_eq_false_iff.mp this).2

theorem buildRanked_eq (cands : List Rec) (n : Nat) (idxs : List Nat)
    (h : ∀ i ∈ idxs, i < cands.length) :
    ∀ pos : Nat, buildRanked cands n idxs pos
      = (List.range idxs.length).map
          (fun j => tagRanked (cands.getD (idxs.getD j 0) dRec) (pos + j) n) := by
  induction idxs with
  | nil => intro pos; rfl
  | cons i rest ih =>
    intro pos
    have hi : i < cands.length := h i (List.mem_cons_self _ _)
    have hrest : ∀ j ∈ rest, j < cands.length :=
      fun j hj => h j (List.mem_cons_of_mem _ hj)
    unfold buildRanked
    rw [List.get?_eq_get hi]
    simp only []
    rw [List.length_cons, List.range_succ_eq_map, List.map_cons, List.map_map]
    simp only [List.cons.injEq]
    constructor
    · simp only [List.getD_cons_zero, Nat.add_zero]
      rw [List.getD_eq_getElem cands dRec hi]
      rfl
    · rw [ih hrest (pos + 1)]
      apply List.map_congr_left
      intro j hj
      simp only [Function.comp_apply, List.getD_cons_succ]
      congr 1
      omega

theorem buildRanked_keys (cands : List Rec) (n : Nat) (idxs : List Nat)
    (h : ∀ i ∈ idxs, i < cands.length) :
    ∀ pos : Nat, (buildRanked cands n idxs pos).map urlKey
      = idxs.map (fun i => urlKey (cands.getD i dRec)) := by
  induction idxs with
  | nil => intro pos; rfl
  | cons i rest ih =>
    intro pos
    have hi : i < cands.length := h i (List.mem_cons_self _ _)
    have hrest : ∀ j ∈ rest, j < cands.length :=
      fun j hj => h j (List.mem_cons_of_mem _ hj)
    unfold buildRanked
    rw [List.get?_eq_get hi]
    simp only [List.map_cons, List.cons.injEq]
    constructor
    · rw [urlKey_tagRanked, List.getD_eq_getElem cands dRec hi]
      rfl
    · exact ih hrest (pos + 1)

theorem buildUnranked_eq (idxs : List Nat) (n : Nat) (l : List Rec) :
    ∀ i0 : Nat, buildUnranked idxs n l i0
      = (l.enumFrom i0).filterMap
          (fun p => if idxs.contains p.1 then none
            else some (tagUnranked p.2 n)) := by
  induction l with
  | nil => intro i0; rfl
  | cons c rest ih =>
    intro i0
    unfold buildUnranked
    rw [List.enumFrom_cons, List.filterMap_cons]
    by_cases hc : idxs.contains i0 = true
    · rw [if_pos hc]
      simp only [hc, if_true]
      exact ih (i0 + 1)
    · rw [if_neg hc]
      have hc2 : idxs.contains i0 = false := by
        cases hq : idxs.contains i0
        · rfl
        · exact absurd hq hc
      simp only [hc2, Bool.false_eq_true, if_false]
      rw [ih (i0 + 1)]

theorem buildUnranked_keys_sublist (idxs : List Nat) (n : Nat) (l : List Rec) :
    ∀ i0 : Nat, ((buildUnranked idxs n l i0).map urlKey).Sublist (l.map urlKey) := by
  induction l with
  | nil => intro i0; exact List.Sublist.refl _
  | cons c rest ih =>
    intro i0
    unfold buildUnranked
    split
    · exact (ih (i0 + 1)).cons (urlKey c)
    · simp only [List.map_cons, urlKey_tagUnranked]
      exact (ih (i0 + 1)).cons₂ (urlKey c)

theorem mem_buildUnranked (idxs : List Nat) (n : Nat) (l : List Rec) :
    ∀ (i0 : Nat) (c : Rec), c ∈ buildUnranked idxs n l i0 →
      ∃ j, j < l.length ∧ idxs.contains (i0 + j) = false ∧
        c = tagUnranked (l.getD j dRec) n := by
  induction l with
  | nil => intro i0 c h; cases h
  | cons a rest ih =>
    intro i0 c h
    unfold buildUnranked at h
    split at h
    · obtain ⟨j, hj, hcon, he⟩ := ih (i0 + 1) c h
      refine ⟨j + 1, by simpa using hj, ?_, by simpa using he⟩
      rw [show i0 + (j + 1) = (i0 + 1) + j by omega]
      exact hcon
    next hc =>
      rcases List.mem_cons.mp h with rfl | h
      · refine ⟨0, by simp, ?_, by simp⟩
        rw [Nat.add_zero]
        cases hq : idxs.contains i0
        · rfl
        · exact absurd hq hc
      · obtain ⟨j, hj, hcon, he⟩ := ih (i0 + 1) c h
        refine ⟨j + 1, by simpa using hj, ?_, by simpa using he⟩
        rw [show i0 + (j + 1) = (i0 + 1) + j by omega]
        exact hcon

/-- Keys of a successful rerank construction are nodup. -/
theorem keyNodup_build (C : List Rec) (idxs : List Nat)
    (hC : keyNodup C) (hn : idxs.Nodup) (hlt : ∀ i ∈ idxs, i < C.length) :
    keyNodup (buildRanked C idxs.length idxs 1 ++
      buildUnranked idxs idxs.length C 0) := by
  apply keyNodup_append
  · unfold keyNodup
    rw [buildRanked_keys C idxs.length idxs hlt 1]
    apply List.Nodup.map_on ?_ hn
    intro i hi j hj he
    exact keyAt_inj hC (hlt i hi) (hlt j hj) he
  · exact List.Nodup.sublist (buildUnranked_keys_sublist idxs idxs.length C 0) hC
  · intro a ha b hb he
    obtain ⟨j, hj, hcon, hbe⟩ := mem_buildUnranked idxs idxs.length C 0 b hb
    -- a is a tagged copy of C at some position i ∈ idxs
    have hka : urlKey a ∈ idxs.map (fun i => urlKey (C.getD i dRec)) := by
      rw [← buildRanked_keys C idxs.length idxs hlt 1]
      exact List.mem_map_of_mem urlKey ha
    obtain ⟨i, hi, hia⟩ := List.mem_map.mp hka
    have hkb : urlKey b = urlKey (C.getD j dRec) := by
      rw [hbe, urlKey_tagUnranked]
    rw [Nat.zero_add] at hcon
    have hij : i = j := by
      apply keyAt_inj hC (hlt i hi) hj
      rw [hia, ← hkb, he]
    subst hij
    rw [← contains_iff_mem idxs i] at hi
    rw [hi] at hcon
    cases hcon

theorem keyNodup_rerankWithGemini (Q : String) (C : List Rec) (k : Nat)
    (resp : LLMResult) (h : keyNodup C) :
    keyNodup (rerankWithGemini Q C k resp) := by
  cases resp with
  | timeout => exact keyNodup_take k (keyNodup_sortDescSim h)
  | llmError => exact keyNodup_take k (keyNodup_sortDescSim h)
  | ok text =>
    simp only [rerankWithGemini]
    by_cases he : (extractNums text).isEmpty = true
    · rw [if_pos he]
      exact keyNodup_take k (keyNodup_sortDescSim h)
    · rw [if_neg he]
      by_cases ht : min k C.length
          ≤ (validIdxs (extractNums text) C.length).length
      · rw [if_pos ht]
        exact keyNodup_take k
          (keyNodup_build C _ h (validIdxs_nodup _ _) (validIdxs_lt _ _))
      · rw [if_neg ht]
        exact keyNodup_take k (keyNodup_sortDescSim h)

theorem hasRerankScores_rerank_success (Q : String) (C : List Rec) (k : Nat)
    (text : String) (hk : 1 ≤ k) (hC : 1 ≤ C.length)
    (he : (extractNums text).isEmpty = false)
    (ht : min k C.length ≤ (validIdxs (extractNums text) C.length).length) :
    hasRerankScores (rerankWithGemini Q C k (LLMResult.ok text)) = true := by
  simp only [rerankWithGemini]
  have hne : ¬((extractNums text).isEmpty = true) := by
    rw [he]; exact Bool.false_ne_true
  rw [if_neg hne, if_pos ht]
  obtain ⟨i, rest, hidxs⟩ :
      ∃ i rest, validIdxs (extractNums text) C.length = i :: rest := by
    cases hx : validIdxs (extractNums text) C.length with
    | nil =>
      rw [hx] at ht
      simp only [List.length_nil, Nat.le_zero] at ht
      omega
    | cons a b => exact ⟨a, b, rfl⟩
  rw [hidxs]
  have hilt : i < C.length := by
    refine validIdxs_lt (extractNums text) C.length i ?_
    rw [hidxs]
    exact List.mem_cons_self _ _
  unfold buildRanked
  rw [List.get?_eq_get hilt]
  obtain ⟨k2, rfl⟩ : ∃ k2, k = k2 + 1 := ⟨k - 1, by omega⟩
  rw [List.cons_append, List.take_succ_cons]
  unfold hasRerankScores
  rw [List.any_cons]
  have hpos : (0 : Int) < ((i :: rest).length : Int) - (1 : Nat) + 1 := by
    rw [List.length_cons]
    push_cast
    omega
  have hhead :
      decide (0 < (tagRanked (C.get ⟨i, hilt⟩) 1 (i :: rest).length).rerank_score.getD 0)
        = true := by
    unfold tagRanked
    simp only [Option.getD_some]
    exact decide_eq_true hpos
  rw [hhead, Bool.true_or]

theorem keyNodup_rerankedOf (cs : List Rec) (Q : String) (k : Nat)
    (ur : Bool) (resp : LLMResult) (h : keyNodup cs) :
    keyNodup (rerankedOf cs Q k ur resp) := by
  have hcfr : keyNodup (cfrOf cs k) :=
    keyNodup_of_sublist (List.take_sublist _ _) h
  unfold rerankedOf
  split
  · exact keyNodup_rerankWithGemini Q _ k resp hcfr
  · exact keyNodup_take k (keyNodup_sortDescSim hcfr)

theorem rerankedOf_cases (cs : List Rec) (Q : String) (k : Nat)
    (ur : Bool) (resp : LLMResult) (hk : 1 ≤ k) :
    hasRerankScores (rerankedOf cs Q k ur resp) = true ∨
      ∀ r ∈ rerankedOf cs Q k ur resp, r ∈ cs := by
  have hmem : ∀ r ∈ (sortDescSim (cfrOf cs k)).take k, r ∈ cs := by
    intro r hr
    have h1 : r ∈ sortDescSim (cfrOf cs k) := (List.take_sublist _ _).subset hr
    have h2 : r ∈ cfrOf cs k := mem_sortDescSim.mp h1
    exact (List.take_sublist _ _).subset h2
  unfold rerankedOf
  split
  next hcond =>
    have hlen : 1 ≤ (cfrOf cs k).length := by
      simp only [Bool.and_eq_true, decide_eq_true_eq] at hcond
      omega
    cases resp with
    | timeout => exact Or.inr hmem
    | llmError => exact Or.inr hmem
    | ok text =>
      by_cases he : (extractNums text).isEmpty = true
      · refine Or.inr ?_
        intro r hr
        apply hmem
        have hdef : rerankWithGemini Q (cfrOf cs k) k (.ok text)
            = (sortDescSim (cfrOf cs k)).take k := by
          simp only [rerankWithGemini]
          rw [if_pos he]
          rfl
        rw [hdef] at hr
        exact hr
      · have he2 : (extractNums text).isEmpty = false := by
          cases hx : (extractNums text).isEmpty
          · rfl
          · exact absurd hx he
        by_cases ht : min k (cfrOf cs k).length
            ≤ (validIdxs (extractNums text) (cfrOf cs k).length).length
        · exact Or.inl
            (hasRerankScores_rerank_success Q (cfrOf cs k) k text hk hlen he2 ht)
        · refine Or.inr ?_
          intro r hr
          apply hmem
          have hdef : rerankWithGemini Q (cfrOf cs k) k (.ok text)
              = (sortDescSim (cfrOf cs k)).take k := by
            simp only [rerankWithGemini]
            rw [if_neg he, if_neg ht]
            rfl
          rw [hdef] at hr
          exact hr
  next => exact Or.inr hmem

theorem keyNodup_balanceTypesLight (reranked pool : List Rec) (Q : String)
    (k : Nat) (h1 : keyNodup reranked)
    (h2 : hasRerankScores reranked = false →
      (∀ r ∈ reranked, r ∈ pool) ∧ keyNodup pool) :
    keyNodup (balanceTypesLight reranked pool Q k) := by
  simp only [balanceTypesLight]
  by_cases hs : hasRerankScores reranked = true
  · rw [if_pos hs]
    exact h1
  · have hs2 : hasRerankScores reranked = false := by
      cases hx : hasRerankScores reranked
      · rfl
      · exact absurd hx hs
    obtain ⟨hmem, hpool⟩ := h2 hs2
    rw [if_neg hs]
    split
    · exact h1
    split
    · split
      · apply keyNodup_append
        · exact keyNodup_of_sublist (pyTake_sublist _ _) h1
        · apply keyNodup_take
          apply keyNodup_sortDescSim
          exact keyNodup_of_sublist (List.filter_sublist _) hpool
        · intro a ha b hb he
          have haR : a ∈ reranked := (pyTake_sublist _ _).subset ha
          have hbP : b ∈ pCandidatesOf pool reranked :=
            mem_sortDescSim.mp ((List.take_sublist _ _).subset hb)
          have hbPool : b ∈ pool := (List.mem_filter.mp hbP).1
          have hbPred := (List.mem_filter.mp hbP).2
          have hbNot : ¬ b ∈ reranked := by
            simp only [Bool.and_eq_true, Bool.not_eq_true'] at hbPred
            intro hmem2
            rw [← contains_iff_mem reranked b] at hmem2
            rw [hbPred.2] at hmem2
            cases hmem2
          have hab : a = b :=
            List.inj_on_of_nodup_map hpool (hmem a haR) hbPool he
          exact hbNot (hab ▸ haR)
      · exact h1
    · exact h1

theorem keyNodup_balanceStage (reranked pool : List Rec) (Q : String)
    (k : Nat) (h1 : keyNodup reranked)
    (h2 : hasRerankScores reranked = false →
      (∀ r ∈ reranked, r ∈ pool) ∧ keyNodup pool) :
    keyNodup (balanceStage reranked pool Q k) := by
  have hb := keyNodup_balanceTypesLight reranked pool Q k h1 h2
  unfold balanceStage
  split
  · exact hb
  · exact keyNodup_sortDescSim hb

theorem recommendCore_spec (cs : List Rec) (Q : String) (k : Nat)
    (bt ur : Bool) (resp : LLMResult) (h : keyNodup cs) (hk : 1 ≤ k) :
    (recommendCore cs Q k bt ur resp).length ≤ k ∧
      keyNodup (recommendCore cs Q k bt ur resp) := by
  constructor
  · unfold recommendCore
    split
    · exact List.length_take_le _ _
    · exact List.length_take_le _ _
  · unfold recommendCore
    split
    · apply keyNodup_take
      apply keyNodup_balanceStage
      · exact keyNodup_rerankedOf cs Q k ur resp h
      · intro hf
        rcases rerankedOf_cases cs Q k ur resp hk with htrue | hmem
        · rw [hf] at htrue
          cases htrue
        · exact ⟨hmem, h⟩
    · exact keyNodup_take k (keyNodup_rerankedOf cs Q k ur resp h)

/-! ## Claim theorems -/

/-- C1: for every query Q, candidate list C and k ≤ |C|, if the LLM call
times out or fails with an exception, _rerank_with_gemini returns C sorted
by similarity descending (stable), truncated to k, with no other
reordering. -/
theorem rerank_failure_fallback (Q : String) (C : List Rec) (k : Nat)
    (hk : k ≤ C.length) :
    rerankWithGemini Q C k LLMResult.timeout = (sortDescSim C).take k ∧
      rerankWithGemini Q C k LLMResult.llmError = (sortDescSim C).take k :=
  ⟨rfl, rfl⟩

theorem rerank_failure_fallback_witness :
    2 ≤ ([exA, exB] : List Rec).length ∧
      rerankWithGemini "java developer" [exA, exB] 2 LLMResult.timeout
        = (sortDescSim [exA, exB]).take 2 :=
  ⟨by decide,
    (rerank_failure_fallback "java developer" [exA, exB] 2 (by decide)).1⟩

/-- C3: whenever fewer valid indices parse from the response text than
min(topK, |C|), _rerank_with_gemini falls back to similarity-descending
order truncated to topK; in particular a text with no parseable integers
always falls back. -/
theorem rerank_parse_threshold_fallback (Q : String) (C : List Rec) (k : Nat)
    (text : String)
    (h : (validIdxs (extractNums text) C.length).length < min k C.length) :
    rerankWithGemini Q C k (LLMResult.ok text) = (sortDescSim C).take k := by
  simp only [rerankWithGemini]
  by_cases he : (extractNums text).isEmpty = true
  · rw [if_pos he]
    rfl
  · rw [if_neg he, if_neg (Nat.not_le.mpr h)]
    rfl

theorem rerank_parse_threshold_fallback_witness :
    (validIdxs (extractNums "I cannot rank these")
        ([exA, exB] : List Rec).length).length
        < min 1 ([exA, exB] : List Rec).length ∧
      rerankWithGemini "q" [exA, exB] 1 (LLMResult.ok "I cannot rank these")
        = (sortDescSim [exA, exB]).take 1 :=
  ⟨by decide,
    rerank_parse_threshold_fallback "q" [exA, exB] 1 "I cannot rank these"
      (by decide)⟩

/-- C5 counterexample: a list all of whose entries carry a rerank_score key
(with value 0, as unranked candidates do) is nevertheless modified by
_balance_types_light, so carrying a rerankScore alone does not make the
balancer a no-op. -/
theorem balance_noop_counterexample :
    exZ8.any (fun r => r.rerank_score.isSome) = true ∧
      balanceTypesLight exZ8 (exZ8 ++ [exP]) "engineer" 10 ≠ exZ8 :=
  ⟨by decide, by decide⟩

/-- C5 amended: once some candidate carries a POSITIVE rerank score
(rerank_score > 0, the test used by the code), _balance_types_light returns its input
unchanged, for any query, pool and topK. -/
theorem balance_noop_on_positive_score (reranked pool : List Rec)
    (Q : String) (k : Nat)
    (h : ∃ r ∈ reranked, 0 < r.rerank_score.getD 0) :
    balanceTypesLight reranked pool Q k = reranked := by
  have hs : hasRerankScores reranked = true := by
    obtain ⟨r, hr, hpos⟩ := h
    exact List.any_eq_true.mpr ⟨r, hr, decide_eq_true hpos⟩
  simp only [balanceTypesLight]
  rw [if_pos hs]

theorem balance_noop_on_positive_score_witness :
    (∃ r ∈ ([tagRanked exA 1 2] : List Rec), 0 < r.rerank_score.getD 0) ∧
      balanceTypesLight [tagRanked exA 1 2] [exA, exB] "engineer" 5
        = [tagRanked exA 1 2] := by
  have h : ∃ r ∈ ([tagRanked exA 1 2] : List Rec),
      0 < r.rerank_score.getD 0 :=
    ⟨tagRanked exA 1 2, List.mem_cons_self _ _, by decide⟩
  exact ⟨h, balance_noop_on_positive_score _ _ "engineer" 5 h⟩

/-- C7 counterexample: the FAISS filler offset -1 does not refer to a
parallel metadata position, yet the collection loop does not skip it: the
only guard is idx >= len, so Python negative indexing selects the LAST
record and produces a candidate from it. -/
theorem collect_negative_offset_counterexample :
    collectCandidates [((5 : Int), (-1 : Int))] [exA, exB]
        = .ok [setSim exB 5] ∧
      (.ok [setSim exB 5] : Except Unit (List Rec)) ≠ .ok [] := by
  refine ⟨rfl, ?_⟩
  intro h
  exact absurd (Except.ok.inj h) (by decide)

/-- C7 amended: for NONNEGATIVE search offsets, collection never raises,
offsets ≥ len(metadata) are skipped, and each candidate comes from the
metadata record in parallel position (collectRef reads md.get? offset);
negative offsets instead use Python indexing, as the counterexample
shows. -/
theorem collect_nonneg_offsets_spec (sr : List (Int × Int)) (md : List Rec)
    (h : ∀ p ∈ sr, 0 ≤ p.2) :
    collectCandidates sr md = .ok (collectRef sr md) :=
  collectGo_eq_dedup md sr [] h

theorem collect_nonneg_offsets_spec_witness :
    (∀ p ∈ ([((9 : Int), (0 : Int)), ((7 : Int), (5 : Int))] :
        List (Int × Int)), 0 ≤ p.2) ∧
      collectCandidates [((9 : Int), (0 : Int)), ((7 : Int), (5 : Int))]
          [exA, exB]
        = .ok (collectRef [((9 : Int), (0 : Int)), ((7 : Int), (5 : Int))]
            [exA, exB]) ∧
      collectRef [((9 : Int), (0 : Int)), ((7 : Int), (5 : Int))] [exA, exB]
        = [setSim exA 9] :=
  ⟨by decide, collect_nonneg_offsets_spec _ _ (by decide), by decide⟩

/-- C8: collection deduplicates by url key: among search results whose
records share a url, exactly the first (hence highest-similarity, when the
stream is similarity-descending) survives, and the survivors keep the
stream order (sublist) and stay similarity-descending. -/
theorem collect_dedup_first_wins (sr : List (Int × Int)) (md : List Rec)
    (h : ∀ p ∈ sr, 0 ≤ p.2) :
    collectCandidates sr md = .ok (collectRef sr md) ∧
      (∀ k : String, (collectRef sr md).filter (fun c => urlKey c == k)
        = ((candStream sr md).filter (fun c => urlKey c == k)).take 1) ∧
      (collectRef sr md).Sublist (candStream sr md) ∧
      (List.Pairwise (fun a b => simOf b ≤ simOf a) (candStream sr md) →
        List.Pairwise (fun a b => simOf b ≤ simOf a) (collectRef sr md)) := by
  refine ⟨collectGo_eq_dedup md sr [] h, ?_, dedupGo_sublist [] _, ?_⟩
  · intro k
    exact dedupGo_filter_of_not_mem [] _ rfl
  · intro hs
    exact List.Pairwise.sublist (dedupGo_sublist [] _) hs

theorem collect_dedup_first_wins_witness :
    (∀ p ∈ ([((9 : Int), (0 : Int)), ((3 : Int), (1 : Int))] :
        List (Int × Int)), 0 ≤ p.2) ∧
      collectCandidates [((9 : Int), (0 : Int)), ((3 : Int), (1 : Int))]
          [exA, exA2]
        = .ok (collectRef [((9 : Int), (0 : Int)), ((3 : Int), (1 : Int))]
            [exA, exA2]) ∧
      collectRef [((9 : Int), (0 : Int)), ((3 : Int), (1 : Int))]
          [exA, exA2] = [setSim exA 9] :=
  ⟨by decide, (collect_dedup_first_wins _ _ (by decide)).1, by decide⟩

/-- C9: generate_query_embedding is total: a blank (whitespace-only) query
is replaced by the placeholder token before embedding, and any provider
failure yields the zero vector of dimension d instead of an exception. -/
theorem embedding_blank_and_failure (q : String) (m1 : String → EmbedOutcome)
    (m23 : String → Option (List Int)) (d : Nat) :
    (pyStrip q = "" →
      generateQueryEmbedding q m1 m23 d
        = generateQueryEmbedding "assessment" m1 m23 d) ∧
    (m1 (effQuery q) = EmbedOutcome.failOther →
      generateQueryEmbedding q m1 m23 d = List.replicate d 0) ∧
    (m1 (effQuery q) = EmbedOutcome.failCaught → m23 (effQuery q) = none →
      generateQueryEmbedding q m1 m23 d = List.replicate d 0) := by
  refine ⟨?_, ?_, ?_⟩
  · intro hq
    have he : effQuery q = effQuery "assessment" := by
      unfold effQuery
      rw [hq]
      have h2 : pyStrip "assessment" = "assessment" := by decide
      rw [h2]
      simp
    simp only [generateQueryEmbedding]
    rw [he]
  · intro h1
    simp only [generateQueryEmbedding]
    rw [h1]
  · intro h1 h2
    simp only [generateQueryEmbedding]
    rw [h1, h2]

theorem embedding_blank_and_failure_witness :
    (pyStrip "   " = "" ∧
      generateQueryEmbedding "   " exM1 exM23 3
        = generateQueryEmbedding "assessment" exM1 exM23 3) ∧
    (exM1f (effQuery "x") = EmbedOutcome.failOther ∧
      generateQueryEmbedding "x" exM1f exM23 3 = List.replicate 3 0) :=
  ⟨⟨by decide, (embedding_blank_and_failure "   " exM1 exM23 3).1 (by decide)⟩,
    ⟨rfl, (embedding_blank_and_failure "x" exM1f exM23 3).2.1 rfl⟩⟩

/-- C10: records with no url field or an empty url all share the empty
dedup key, so the collected candidates contain at most one such record,
the first one in stream order. -/
theorem urlless_single_candidate (sr : List (Int × Int)) (md : List Rec)
    (h : ∀ p ∈ sr, 0 ≤ p.2) :
    (∀ r : Rec, (r.URL = none ∨ r.URL = some "") →
      (r.url = none ∨ r.url = some "") → urlKey r = "") ∧
      collectCandidates sr md = .ok (collectRef sr md) ∧
      (collectRef sr md).filter (fun c => urlKey c == "")
        = ((candStream sr md).filter (fun c => urlKey c == "")).take 1 ∧
      ((collectRef sr md).filter (fun c => urlKey c == "")).length ≤ 1 := by
  refine ⟨?_, collectGo_eq_dedup md sr [] h,
    dedupGo_filter_of_not_mem [] _ rfl, ?_⟩
  · intro r h1 h2
    unfold urlKey
    rcases h1 with h1 | h1 <;> rcases h2 with h2 | h2 <;> rw [h1, h2] <;> rfl
  · unfold collectRef
    rw [dedupGo_filter_of_not_mem [] _ rfl]
    exact List.length_take_le _ _

/-- C2: when the response parses to enough valid indices (at least
min(topK, |C|)), the output is the candidates reordered exactly by the
parsed index permutation, the j-th picked candidate tagged with 1-based
rerank_position j and rerank_score N - j + 1 (N the number of parsed
indices), with the unpicked candidates appended in original order
(and the whole list truncated to topK as the function always does). -/
theorem rerank_permutation_applied (Q : String) (C : List Rec) (k : Nat)
    (text : String)
    (h : min k C.length ≤ (validIdxs (extractNums text) C.length).length) :
    rerankWithGemini Q C k (LLMResult.ok text)
      = (rerankSpec C (validIdxs (extractNums text) C.length)).take k := by
  simp only [rerankWithGemini]
  by_cases he : (extractNums text).isEmpty = true
  · rw [if_pos he]
    have hnil : extractNums text = [] := List.isEmpty_iff.mp he
    rw [hnil] at h ⊢
    have hvi : validIdxs ([] : List Nat) C.length = [] := rfl
    rw [hvi] at h ⊢
    have hmin : min k C.length = 0 := Nat.le_zero.mp (by simpa using h)
    rcases Nat.min_eq_zero_iff.mp hmin with hk0 | hc0
    · subst hk0
      simp [simFallback, rerankSpec]
    · have hC : C = [] := List.length_eq_zero.mp hc0
      subst hC
      simp [simFallback, rerankSpec, sortDescSim]
  · rw [if_neg he, if_pos h]
    congr 1
    unfold rerankSpec
    congr 1
    · rw [buildRanked_eq C _ _ (validIdxs_lt _ _) 1]
      apply List.map_congr_left
      intro j hj
      rw [Nat.add_comm 1 j]
    · rw [buildUnranked_eq _ _ C 0]
      rfl

theorem rerank_permutation_applied_witness :
    min 3 ([exA, exB, exC] : List Rec).length
        ≤ (validIdxs (extractNums "3,1,2")
            ([exA, exB, exC] : List Rec).length).length ∧
      rerankWithGemini "q" [exA, exB, exC] 3 (LLMResult.ok "3,1,2")
        = [tagRanked exC 1 3, tagRanked exA 2 3, tagRanked exB 3 3] := by
  have h := rerank_permutation_applied "q" [exA, exB, exC] 3 "3,1,2" (by decide)
  exact ⟨by decide, h.trans (by decide)⟩

/-- C4: whenever recommend returns a result list (for any flags, any LLM
outcome and any search results), that list is at most topK long and
contains no two records with the same url key, for every topK in [1,20]. -/
theorem recommend_bounded_nodup (Q : String) (sr : List (Int × Int))
    (md : List Rec) (k : Nat) (bt ur : Bool) (resp : LLMResult)
    (out : List Rec) (hk1 : 1 ≤ k) (hk2 : k ≤ 20)
    (hok : recommend Q sr md k bt ur resp = .ok out) :
    out.length ≤ k ∧ keyNodup out := by
  unfold recommend at hok
  cases hc : collectCandidates sr md with
  | error e =>
    rw [hc] at hok
    cases hok
  | ok cs =>
    rw [hc] at hok
    simp only [Except.map] at hok
    have hout : recommendCore cs Q k bt ur resp = out := Except.ok.inj hok
    subst hout
    have hcs : keyNodup cs := (collectGo_key_spec md sr [] cs hc).1
    exact recommendCore_spec cs Q k bt ur resp hcs hk1

theorem recommend_bounded_nodup_witness :
    ((1 : Nat) ≤ 1 ∧ (1 : Nat) ≤ 20 ∧
      recommend "q" [((9 : Int), (0 : Int))] [exA] 1 false false
          (LLMResult.ok "") = .ok [setSim exA 9]) ∧
      ([setSim exA 9] : List Rec).length ≤ 1 ∧ keyNodup [setSim exA 9] :=
  ⟨⟨le_refl 1, by omega, rfl⟩,
    recommend_bounded_nodup "q" [((9 : Int), (0 : Int))] [exA] 1 false false
      (LLMResult.ok "") [setSim exA 9] (le_refl 1) (by omega) rfl⟩

/-- C6: in the no-rerank fallback path (no record carries a rerank score),
for a role query with no behavioural 'P' entry among the top results, at
least 8 technical 'K' entries present and unselected behavioural pool
candidates available, the balance stage drops up to 2 tail entries of the
top list, appends the top-similarity behavioural pool candidates, and the
merged list is re-sorted by similarity descending; and when both
categories are already present, _balance_types_light returns its input
unchanged. -/
theorem balance_fallback_injection (query : String) (reranked pool : List Rec)
    (topK : Nat)
    (hA : ∀ r ∈ reranked, r.rerank_score = none)
    (hB : ∀ r ∈ pool, r.rerank_score = none) :
    (isRoleQuery query = true → hasType reranked "P" = false →
      8 ≤ (reranked.filter (fun r => typeKey r == "K")).length →
      pCandidatesOf pool reranked ≠ [] →
      balanceStage reranked pool query topK
        = sortDescSim
            (pyTake reranked
                ((topK : Int) - ((min 2 (pCandidatesOf pool reranked).length : Nat) : Int))
              ++ (sortDescSim (pCandidatesOf pool reranked)).take
                  (min 2 (pCandidatesOf pool reranked).length))) ∧
    (hasType reranked "K" = true → hasType reranked "P" = true →
      balanceTypesLight reranked pool query topK = reranked) := by
  have hno : hasRerankScores reranked = false := by
    apply List.any_eq_false.mpr
    intro r hr
    rw [hA r hr]
    simp
  constructor
  · intro hrole hP h8 hpc
    have h8b : 8 ≤ reranked.length :=
      le_trans h8 (List.length_filter_le _ _)
    have hKP : (hasType reranked "K" && hasType reranked "P") = false := by
      rw [hP, Bool.and_false]
    have hrole2 : (isRoleQuery query && !hasType reranked "P") = true := by
      rw [hrole, hP]
      rfl
    have hpcE : (pCandidatesOf pool reranked).isEmpty = false := by
      cases hx : (pCandidatesOf pool reranked).isEmpty
      · rfl
      · exact absurd (List.isEmpty_iff.mp hx) hpc
    have hcond : (decide (8 ≤ reranked.length)
        && !(pCandidatesOf pool reranked).isEmpty) = true := by
      rw [decide_eq_true h8b, hpcE]
      rfl
    have hbal : balanceTypesLight reranked pool query topK
        = pyTake reranked
            ((topK : Int) - ((min 2 (pCandidatesOf pool reranked).length : Nat) : Int))
          ++ (sortDescSim (pCandidatesOf pool reranked)).take
              (min 2 (pCandidatesOf pool reranked).length) := by
      simp only [balanceTypesLight]
      rw [if_neg (by rw [hno]; exact Bool.false_ne_true),
        if_neg (by rw [hKP]; exact Bool.false_ne_true),
        if_pos hrole2, if_pos hcond]
    have hmergedno : hasRerankScores
        (pyTake reranked
            ((topK : Int) - ((min 2 (pCandidatesOf pool reranked).length : Nat) : Int))
          ++ (sortDescSim (pCandidatesOf pool reranked)).take
              (min 2 (pCandidatesOf pool reranked).length)) = false := by
      apply List.any_eq_false.mpr
      intro r hr
      rcases List.mem_append.mp hr with hr | hr
      · have hrm : r ∈ reranked := (pyTake_sublist _ _).subset hr
        rw [hA r hrm]
        simp
      · have h1 : r ∈ sortDescSim (pCandidatesOf pool reranked) :=
          (List.take_sublist _ _).subset hr
        have h2 : r ∈ pCandidatesOf pool reranked := mem_sortDescSim.mp h1
        have h3 : r ∈ pool := (List.mem_filter.mp h2).1
        rw [hB r h3]
        simp
    unfold balanceStage
    rw [hbal, if_neg (by rw [hmergedno]; exact Bool.false_ne_true)]
  · intro hK hP
    simp only [balanceTypesLight]
    rw [if_neg (by rw [hno]; exact Bool.false_ne_true)]
    rw [if_pos (by rw [hK, hP]; rfl)]

theorem balance_fallback_injection_witness :
    ((∀ r ∈ exN8, r.rerank_score = none) ∧
      isRoleQuery "senior software engineer" = true ∧
      hasType exN8 "P" = false ∧
      8 ≤ (exN8.filter (fun r => typeKey r == "K")).length ∧
      pCandidatesOf (exN8 ++ [exNP]) exN8 ≠ [] ∧
      balanceStage exN8 (exN8 ++ [exNP]) "senior software engineer" 10
        = sortDescSim
            (pyTake exN8
                ((10 : Int) - ((min 2 (pCandidatesOf (exN8 ++ [exNP]) exN8).length : Nat) : Int))
              ++ (sortDescSim (pCandidatesOf (exN8 ++ [exNP]) exN8)).take
                  (min 2 (pCandidatesOf (exN8 ++ [exNP]) exN8).length))) ∧
    (hasType exKP "K" = true ∧ hasType exKP "P" = true ∧
      balanceTypesLight exKP [] "q2" 5 = exKP) := by
  constructor
  · refine ⟨by decide, by decide, by decide, by decide, by decide, ?_⟩
    exact (balance_fallback_injection "senior software engineer" exN8
      (exN8 ++ [exNP]) 10 (by decide) (by decide)).1 (by decide) (by decide)
      (by decide) (by decide)
  · refine ⟨by decide, by decide, ?_⟩
    exact (balance_fallback_injection "q2" exKP [] 5 (by decide)
      (by decide)).2 (by decide) (by decide)

theorem urlless_single_candidate_witness :
    (∀ p ∈ ([((3 : Int), (0 : Int)), ((2 : Int), (1 : Int))] :
        List (Int × Int)), 0 ≤ p.2) ∧
      collectRef [((3 : Int), (0 : Int)), ((2 : Int), (1 : Int))] [nu1, nu2]
        = [setSim nu1 3] ∧
      ((collectRef [((3 : Int), (0 : Int)), ((2 : Int), (1 : Int))]
          [nu1, nu2]).filter (fun c => urlKey c == "")).length ≤ 1 :=
  ⟨by decide, by decide, (urlless_single_candidate _ _ (by decide)).2.2.2⟩

end SHL
